import Mathlib

set_option maxRecDepth 4000

/-!
A verification development for the transaction log interpreter of the explorer
repository (`app/utils/program-logs.ts`).  The TypeScript function
`parseProgramLogs` is shallowly embedded below: JavaScript strings are lists of
characters, the two regular expressions of the source are implemented as
explicit scanners with JavaScript semantics (leftmost match, `.` does not match
a newline, a `g`-replace continues after the end of each match), JavaScript
numbers reaching `computeUnits` are modelled by `JSNum` (an integer or `NaN`;
`Number.parseInt` is applied only to captures of `(\d*)`, whose digit strings
are modelled exactly), and the runtime `TypeError` thrown by an access to
`prettyLogs[prettyLogs.length - 1]` on an empty array is modelled by
`Except.error ()`.

The external collaborators that are not part of the repository are abstracted
exactly at the interface the specification gives them:
`getProgramName` (the program name resolver, with the cluster already applied)
and `decodeFillLog` (the event decoder registry) are function parameters, and
the error classifier's result is taken directly as an `Option InstrError`.
-/

/-- A JavaScript string, as a list of characters. -/
abbrev JSString := List Char

/-- JavaScript `s.startsWith(p)`. -/
def jsStartsWith (s p : JSString) : Bool :=
  p.isPrefixOf s

/-- JavaScript `s.includes(sub)`. -/
def jsIncludes (s sub : JSString) : Bool :=
  match s with
  | [] => sub.isPrefixOf ([] : JSString)
  | _ :: t => sub.isPrefixOf s || jsIncludes t sub

/-- JavaScript `s.indexOf(sub)`: index of the first occurrence, `-1` if none. -/
def jsIndexOf (s sub : JSString) : Int :=
  if sub.isPrefixOf s then 0
  else
    match s with
    | [] => -1
    | _ :: t => if jsIndexOf t sub < 0 then -1 else jsIndexOf t sub + 1

/-- JavaScript `s.slice(i)` (single argument form). -/
def jsSlice (s : JSString) (i : Int) : JSString :=
  let len : Int := s.length
  let start := if i < 0 then max (len + i) 0 else min i len
  s.drop start.toNat

/-- JavaScript `s.charAt(0).toUpperCase() + s.slice(1)` for ASCII data (the
source applies it only to strings beginning with the letter `f`). -/
def upperFirst : JSString → JSString
  | [] => []
  | c :: t => c.toUpper :: t

/-- Strip a literal pattern piece from the front of a string, or fail. -/
def dropPre (p s : JSString) : Option JSString :=
  if p.isPrefixOf s then some (s.drop p.length) else none

/-- The JavaScript regex character class `\w` = `[A-Za-z0-9_]`. -/
def isWordChar (c : Char) : Bool :=
  c.isAlphanum || c == '_'

/-- A JavaScript number as it can reach `computeUnits`: an integer or `NaN`.
Digit-string captures of `(\d*)` are modelled exactly as integers. -/
inductive JSNum where
  | nan : JSNum
  | num : Int → JSNum
deriving DecidableEq, Repr

/-- Value of a digit string. -/
def digitsToNat (s : JSString) : Nat :=
  s.foldl (fun a c => a * 10 + (c.toNat - '0'.toNat)) 0

/-- `Number.parseInt` restricted to captures of `(\d*)`: the empty capture
gives `NaN`, otherwise the value of the digits. -/
def jsParseInt (s : JSString) : JSNum :=
  if s = [] then .nan else .num (digitsToNat s)

/-- JavaScript `+` on numbers reaching `computeUnits`: `NaN` is absorbing. -/
def jsAdd : JSNum → JSNum → JSNum
  | .num a, .num b => .num (a + b)
  | _, _ => .nan

/-- Attempt to match the regex `Program (\w*) invoke \[(\d)\]` at the start of
the string; on success return the first capture (the program address).  The
`\w*` run must be maximal because the following literal starts with a space. -/
def invokeMatchAt (s : JSString) : Option JSString :=
  match dropPre "Program ".toList s with
  | none => none
  | some r =>
    let addr := r.takeWhile isWordChar
    match dropPre " invoke [".toList (r.dropWhile isWordChar) with
    | none => none
    | some r2 =>
      match r2 with
      | c :: d :: _ => if c.isDigit && d == ']' then some addr else none
      | _ => none

/-- `log.matchAll(/Program (\w*) invoke \[(\d)\]/g)`, first match's capture:
scan left to right for the leftmost position where `invokeMatchAt` succeeds. -/
def findInvoke : JSString → Option JSString
  | [] => none
  | s@(_ :: t) =>
    match invokeMatchAt s with
    | some a => some a
    | none => findInvoke t

/-- Attempt to match `Program \w* consumed (\d*) (.*)` at the start of the
string; on success return the two captures and the remainder of the string
after the match (`.` does not match a newline). -/
def consumedMatchAt (s : JSString) : Option (JSString × JSString × JSString) :=
  match dropPre "Program ".toList s with
  | none => none
  | some r =>
    match dropPre " consumed ".toList (r.dropWhile isWordChar) with
    | none => none
    | some r2 =>
      let p1 := r2.takeWhile Char.isDigit
      match dropPre " ".toList (r2.dropWhile Char.isDigit) with
      | none => none
      | some r3 => some (p1, r3.takeWhile (fun c => !(c == '\n')), r3.dropWhile (fun c => !(c == '\n')))

/-- `log.replace(/Program \w* consumed (\d*) (.*)/g, cb)`, with explicit fuel:
rewrite every match to `Program consumed: <p1> <p2>`, and collect in order the
`parseInt` value of each match's first capture (the values the callback may
add to `computeUnits`).  Scanning continues after the end of each match.  Each
step consumes at least one character, so fuel `s.length` (as supplied by
`consumedReplace`) always suffices; the out-of-fuel branch is unreachable. -/
def consumedReplaceF : Nat → JSString → JSString × List JSNum
  | _, [] => ([], [])
  | 0, s => (s, [])
  | fuel + 1, c :: t =>
    match consumedMatchAt (c :: t) with
    | some (p1, p2, rem) =>
      let r := consumedReplaceF fuel rem
      ("Program consumed: ".toList ++ p1 ++ [' '] ++ p2 ++ r.1, jsParseInt p1 :: r.2)
    | none =>
      let r := consumedReplaceF fuel t
      (c :: r.1, r.2)

/-- The `g`-replace of the `consumed` regex over a whole string. -/
def consumedReplace (s : JSString) : JSString × List JSNum :=
  consumedReplaceF s.length s

/-- Does `Program \w* consumed (\d*) (.*)` match anywhere in the string? -/
def hasConsumed : JSString → Bool
  | [] => false
  | s@(_ :: t) => (consumedMatchAt s).isSome || hasConsumed t

/-- `log.replace(/Program log: (.*)/g, cb)`, with explicit fuel: rewrite every
match to `Program logged: "<p1>"`; `.` does not match a newline, and scanning
continues after the end of each match.  Fuel `s.length` always suffices. -/
def programLogReplaceF : Nat → JSString → JSString
  | _, [] => []
  | 0, s => s
  | fuel + 1, c :: t =>
    match dropPre "Program log: ".toList (c :: t) with
    | some r =>
      "Program logged: \"".toList ++ r.takeWhile (fun c => !(c == '\n')) ++ ['"'] ++
        programLogReplaceF fuel (r.dropWhile (fun c => !(c == '\n')))
    | none => c :: programLogReplaceF fuel t

/-- The `g`-replace of the `Program log: ` regex over a whole string. -/
def programLogReplace (s : JSString) : JSString :=
  programLogReplaceF s.length s

/-- Output log line style. -/
inductive LogStyle where
  | muted | info | success | warning
deriving DecidableEq, Repr

/-- Output unit `LogMessage` of the source (`text`, `prefix`, `style`); the
`prefix` field is named `pfx` because `prefix` is a reserved word in Lean. -/
structure LogMessage where
  text : JSString
  pfx : JSString
  style : LogStyle
deriving DecidableEq, Repr

/-- Output unit `InstructionLogs` of the source. -/
structure InstructionLogs where
  invokedProgram : Option JSString
  logs : List LogMessage
  computeUnits : JSNum
  truncated : Bool
  failed : Bool
deriving DecidableEq, Repr

/-- An `InstructionLogs` extended with a ghost field `procd` recording, for
this trace, the lines handled by the final (default) branch of the line loop
together with the invocation depth at the time each was processed.  The ghost
field influences no other field and is stripped by `ITrace.toInstructionLogs`;
it exists so that the aggregation of `computeUnits` can be stated per trace. -/
structure ITrace extends InstructionLogs where
  procd : List (JSString × Int)
deriving DecidableEq, Repr

/-- The `prefixBuilder` helper of the source: `(L-1)` copies of the
two-non-breaking-space indent token followed by `"> "`; for `L ≤ 0` the
indent part degrades to the empty string. -/
def prefixBuilder (indentLevel : Int) : JSString :=
  if indentLevel ≤ 0 then
    ([] : JSString) ++ "> ".toList
  else
    (List.replicate (indentLevel - 1).toNat "  ".toList).flatten ++ "> ".toList

/-- The source emits a `console.warn` diagnostic exactly when `prefixBuilder`
is called with an indent level `≤ 0`. -/
def prefixBuilderWarns (indentLevel : Int) : Bool :=
  indentLevel ≤ 0

/-- Append one log line to a trace. -/
def pushLog (t : ITrace) (m : LogMessage) : ITrace :=
  { t with logs := t.logs ++ [m] }

/-- The program address whose `Program data: ` payloads the source tries to
decode as Manifest fill logs. -/
def mnfstAddr : JSString :=
  "MNFSTqtC93rEfYHB6hF82sKdZpUDFWkViLByLd1k1Ms".toList

/-- The warning text built by the `failed` branch of the source: the quoted
slice after the first `": "` (JavaScript `log.slice(log.indexOf(': ') + 2)`,
which degrades to dropping the first character when `": "` is absent), or the
sentence-cased full line when the line itself starts with `failed`. -/
def failedLineText (log : JSString) : JSString :=
  if jsStartsWith log "failed".toList then upperFirst log
  else "Program returned error: \"".toList ++
       jsSlice log (jsIndexOf log ": ".toList + 2) ++ ['"']

/-- Parser-internal state of one call: the invocation depth, the output traces
(most recent first, so the head is the source's `prettyLogs[length - 1]`), and
the invocation address stack (top first). -/
structure PState where
  depth : Int
  prettyLogs : List ITrace
  currentProgram : List JSString
deriving DecidableEq, Repr

/-- A fresh trace opened by an invocation marker at depth 0. -/
def newInvokedTrace (programAddress : JSString) : ITrace :=
  { invokedProgram := some programAddress, logs := [], computeUnits := .num 0,
    truncated := false, failed := false, procd := [] }

/-- A trace synthesized by the default branch at depth 0 (no invoke marker). -/
def newNullTrace : ITrace :=
  { invokedProgram := none, logs := [], computeUnits := .num 0,
    truncated := false, failed := false, procd := [] }

/-- The default branch of the line loop, acting on the currently open trace:
run the `consumed` `g`-replace over the line (adding the matches' values to
`computeUnits` only when the invocation depth is exactly `1`), append the
(possibly rewritten) line as a muted line, record the processed line with its
depth in the ghost field, and, when the rewritten line carries a
`Program data: ` payload and the top of the invocation stack is the Manifest
program, append the decoder's optional pretty-printed fill log. -/
def defaultTraceUpdate (decodeFillLog : JSString → Option JSString)
    (stackTop : Option JSString) (t : ITrace) (log : JSString) (depth : Int) : ITrace :=
  let r := consumedReplace log
  let t := if depth = 1 then { t with computeUnits := r.2.foldl jsAdd t.computeUnits } else t
  let t := pushLog t ⟨r.1, prefixBuilder depth, .muted⟩
  let t := { t with procd := t.procd ++ [(log, depth)] }
  if jsIncludes r.1 "Program data: ".toList && stackTop == some mnfstAddr then
    match decodeFillLog (r.1.drop "Program data: ".toList.length) with
    | some pretty => pushLog t ⟨"MFX Fill Log: \n".toList ++ pretty, prefixBuilder depth, .muted⟩
    | none => t
  else t

/-- One iteration of the source's `logs.forEach` body.  `Except.error ()` is
the `TypeError` thrown by member access on `prettyLogs[prettyLogs.length - 1]`
when `prettyLogs` is empty. -/
def step (getProgramName : JSString → JSString) (decodeFillLog : JSString → Option JSString)
    (s : PState) (log : JSString) : Except Unit PState :=
  if jsStartsWith log "Program log:".toList then
    let log := programLogReplace log
    match s.prettyLogs with
    | [] => .error ()
    | t :: rest =>
      .ok { s with prettyLogs := pushLog t ⟨log, prefixBuilder s.depth, .muted⟩ :: rest }
  else if jsStartsWith log "Log truncated".toList then
    match s.prettyLogs with
    | [] => .error ()
    | t :: rest => .ok { s with prettyLogs := { t with truncated := true } :: rest }
  else
    match findInvoke log with
    | some programAddress =>
      let programName := getProgramName programAddress
      if s.depth = 0 then
        .ok { depth := s.depth + 1,
              prettyLogs := newInvokedTrace programAddress :: s.prettyLogs,
              currentProgram := programAddress :: s.currentProgram }
      else
        match s.prettyLogs with
        | [] => .error ()
        | t :: rest =>
          .ok { depth := s.depth + 1,
                prettyLogs :=
                  pushLog t ⟨"Program invoked: ".toList ++ programName,
                             prefixBuilder s.depth, .info⟩ :: rest,
                currentProgram := programAddress :: s.currentProgram }
    | none =>
      if jsIncludes log "success".toList then
        match s.prettyLogs with
        | [] => .error ()
        | t :: rest =>
          .ok { depth := s.depth - 1,
                prettyLogs :=
                  pushLog t ⟨"Program returned success".toList,
                             prefixBuilder s.depth, .success⟩ :: rest,
                currentProgram := s.currentProgram.tail }
      else if jsIncludes log "failed".toList then
        match s.prettyLogs with
        | [] => .error ()
        | t :: rest =>
          let d := if jsStartsWith log "failed".toList then s.depth + 1 else s.depth
          let currText := failedLineText log
          .ok { depth := d - 1,
                prettyLogs :=
                  pushLog { t with failed := true } ⟨currText, prefixBuilder d, .warning⟩ :: rest,
                currentProgram := s.currentProgram.tail }
      else
        let depth := if s.depth = 0 then s.depth + 1 else s.depth
        let pls := if s.depth = 0 then newNullTrace :: s.prettyLogs else s.prettyLogs
        match pls with
        | [] => .error ()
        | t :: rest =>
          .ok { depth := depth,
                prettyLogs :=
                  defaultTraceUpdate decodeFillLog s.currentProgram.head? t log depth :: rest,
                currentProgram := s.currentProgram }

/-- The source's `logs.forEach`, with the thrown error propagated. -/
def processLines (getProgramName : JSString → JSString)
    (decodeFillLog : JSString → Option JSString) :
    PState → List JSString → Except Unit PState
  | s, [] => .ok s
  | s, log :: rest =>
    match step getProgramName decodeFillLog s log with
    | .error e => .error e
    | .ok s' => processLines getProgramName decodeFillLog s' rest

/-- The result of the external error classifier
(`getTransactionInstructionError`), modelled from the spec: a failing
instruction index and a message.  `parseProgramLogs` receives the classifier's
result directly (`none` when there is no error or it does not map). -/
structure InstrError where
  index : Nat
  message : JSString
deriving DecidableEq, Repr

/-- Modify the last element of a list, if any (the source's in-place mutation
of `prettyLogs[prettyLogs.length - 1]` in the post-pass). -/
def modifyLast (f : α → α) : List α → List α
  | [] => []
  | [a] => [f a]
  | a :: b :: r => a :: modifyLast f (b :: r)

/-- The empty, already-failed trace synthesized by the post-pass when an error
exists but the line loop produced no trace at all. -/
def emptyFailedTrace : ITrace :=
  { invokedProgram := none, logs := [], computeUnits := .num 0,
    truncated := false, failed := true, procd := [] }

/-- The post-pass of the source (error attribution), acting on the traces in
output order. -/
def finalizeErr (prettyError : Option InstrError) (prettyLogs : List ITrace) : List ITrace :=
  let prettyLogs :=
    match prettyError with
    | some _ => if prettyLogs.length = 0 then prettyLogs ++ [emptyFailedTrace] else prettyLogs
    | none => prettyLogs
  match prettyError with
  | some e =>
    if (e.index : Int) = (prettyLogs.length : Int) - 1 then
      modifyLast (fun failedIx =>
        if failedIx.failed then failedIx
        else { failedIx with
                 failed := true,
                 logs := failedIx.logs ++
                   [⟨"Runtime error: ".toList ++ e.message, prefixBuilder 1, .warning⟩] }) prettyLogs
    else prettyLogs
  | none => prettyLogs

/-- The initial parser state. -/
def initState : PState :=
  { depth := 0, prettyLogs := [], currentProgram := [] }

/-- `parseProgramLogs` with the ghost recording kept (see `ITrace`). -/
def parseProgramLogsI (logs : List JSString) (error : Option InstrError)
    (getProgramName : JSString → JSString) (decodeFillLog : JSString → Option JSString) :
    Except Unit (List ITrace) :=
  match processLines getProgramName decodeFillLog initState logs with
  | .error e => .error e
  | .ok s => .ok (finalizeErr error s.prettyLogs.reverse)

/-- The embedded `parseProgramLogs`: the instrumented run with the ghost field
stripped from every trace. -/
def parseProgramLogs (logs : List JSString) (error : Option InstrError)
    (getProgramName : JSString → JSString) (decodeFillLog : JSString → Option JSString) :
    Except Unit (List InstructionLogs) :=
  match parseProgramLogsI logs error getProgramName decodeFillLog with
  | .error e => .error e
  | .ok ts => .ok (ts.map ITrace.toInstructionLogs)

/-- Classification of the first input line: `true` exactly when the first line
is a `Program log:` line, a `Log truncated` marker, or (without an invocation
match) a success or failure marker — the lines whose handling dereferences
`prettyLogs[prettyLogs.length - 1]` while `prettyLogs` is still empty. -/
def firstLineFaults : List JSString → Bool
  | [] => false
  | l :: _ =>
    jsStartsWith l "Program log:".toList || jsStartsWith l "Log truncated".toList ||
      (!(findInvoke l).isSome && (jsIncludes l "success".toList || jsIncludes l "failed".toList))

/-- A line that reaches the default branch of the line loop and is not
rewritten there: it does not start with `Program log:` or `Log truncated`,
does not match the invocation regex, contains neither `success` nor `failed`,
and does not match the `consumed` regex. -/
def plainLine (l : JSString) : Bool :=
  !jsStartsWith l "Program log:".toList && !jsStartsWith l "Log truncated".toList &&
    !(findInvoke l).isSome && !jsIncludes l "success".toList &&
    !jsIncludes l "failed".toList && !hasConsumed l

/-- The compute units prescribed by the recorded default-branch lines of a
trace: the `jsAdd`-sum, starting from `0`, of the `parseInt` values of the
`consumed`-regex matches of exactly those recorded lines processed at
invocation depth `1`. -/
def cuSpec (procd : List (JSString × Int)) : JSNum :=
  ((procd.filterMap fun p =>
    if p.2 = 1 then some (consumedReplace p.1).2 else none).flatten).foldl jsAdd (.num 0)

/-- The substring after the first occurrence of `sep`, if `sep` occurs. -/
def afterFirstSep (sep : JSString) : JSString → Option JSString
  | [] => dropPre sep []
  | s@(_ :: t) =>
    match dropPre sep s with
    | some r => some r
    | none => afterFirstSep sep t

/-- `n` copies of the two-character indent token (two non-breaking spaces). -/
def indentTokens : Nat → JSString
  | 0 => []
  | k + 1 => Char.ofNat 160 :: Char.ofNat 160 :: indentTokens k

/-- The prefix the specification prescribes for indent level `L ≥ 1`:
`(L-1)` indent tokens followed by `"> "`. -/
def specPrefix (indentLevel : Int) : JSString :=
  indentTokens (indentLevel - 1).toNat ++ "> ".toList

/-- A line of the form `Program <addr> invoke [<n>]`. -/
def invokeLine (addr n : JSString) : JSString :=
  "Program ".toList ++ addr ++ " invoke [".toList ++ n ++ "]".toList

/-! ### Basic facts about the string helpers -/

theorem dropPre_eq_append {p s r : JSString} (h : dropPre p s = some r) : s = p ++ r := by
  unfold dropPre at h
  split at h
  · rename_i hpre
    cases h
    rcases List.isPrefixOf_iff_prefix.mp hpre with ⟨t, ht⟩
    subst ht
    rw [List.drop_left]
  · cases h

theorem dropPre_append (p r : JSString) : dropPre p (p ++ r) = some r := by
  unfold dropPre
  rw [if_pos (List.isPrefixOf_iff_prefix.mpr ⟨r, rfl⟩)]
  rw [List.drop_left]

theorem jsStartsWith_eq_append {s p : JSString} (h : jsStartsWith s p = true) :
    ∃ r, s = p ++ r := by
  rcases List.isPrefixOf_iff_prefix.mp h with ⟨r, hr⟩
  exact ⟨r, hr.symm⟩

theorem jsStartsWith_append (p r : JSString) : jsStartsWith (p ++ r) p = true :=
  List.isPrefixOf_iff_prefix.mpr ⟨r, rfl⟩

/-! ### The line loop cannot throw once a trace exists -/

theorem step_ok_of_ne (g : JSString → JSString) (dec : JSString → Option JSString)
    (s : PState) (log : JSString) (h : s.prettyLogs ≠ []) :
    ∃ s', step g dec s log = .ok s' ∧ s'.prettyLogs ≠ [] := by
  obtain ⟨t, rest, hs⟩ : ∃ t rest, s.prettyLogs = t :: rest := by
    cases hpl : s.prettyLogs with
    | nil => exact absurd hpl h
    | cons a b => exact ⟨a, b, rfl⟩
  unfold step
  simp only [hs]
  by_cases h1 : jsStartsWith log "Program log:".toList = true
  · simp only [h1, if_true]
    exact ⟨_, rfl, by simp⟩
  · simp only [h1, if_false, Bool.not_eq_true] at *
    simp only [h1, Bool.false_eq_true, if_false]
    by_cases h2 : jsStartsWith log "Log truncated".toList = true
    · simp only [h2, if_true]
      exact ⟨_, rfl, by simp⟩
    · simp only [Bool.not_eq_true] at h2
      simp only [h2, Bool.false_eq_true, if_false]
      cases h3 : findInvoke log with
      | some a =>
        by_cases h4 : s.depth = 0
        · simp only [h4, if_true, if_pos rfl]
          exact ⟨_, rfl, by simp⟩
        · simp only [if_neg h4]
          exact ⟨_, rfl, by simp⟩
      | none =>
        by_cases h4 : jsIncludes log "success".toList = true
        · simp only [h4, if_true]
          exact ⟨_, rfl, by simp⟩
        · simp only [Bool.not_eq_true] at h4
          simp only [h4, Bool.false_eq_true, if_false]
          by_cases h5 : jsIncludes log "failed".toList = true
          · simp only [h5, if_true]
            exact ⟨_, rfl, by simp⟩
          · simp only [Bool.not_eq_true] at h5
            simp only [h5, Bool.false_eq_true, if_false]
            by_cases h6 : s.depth = 0
            · simp only [if_pos h6]
              exact ⟨_, rfl, by simp⟩
            · simp only [if_neg h6]
              exact ⟨_, rfl, by simp⟩

theorem processLines_ok_of_ne (g : JSString → JSString) (dec : JSString → Option JSString) :
    ∀ (logs : List JSString) (s : PState), s.prettyLogs ≠ [] →
      ∃ s', processLines g dec s logs = .ok s' ∧ s'.prettyLogs ≠ []
  | [], s, h => ⟨s, rfl, h⟩
  | l :: rest, s, h => by
    obtain ⟨s1, hs1, hne⟩ := step_ok_of_ne g dec s l h
    obtain ⟨s', hs', hne'⟩ := processLines_ok_of_ne g dec rest s1 hne
    refine ⟨s', ?_, hne'⟩
    unfold processLines
    rw [hs1]
    exact hs'

theorem step_init_err (g : JSString → JSString) (dec : JSString → Option JSString)
    (l : JSString) (hf : firstLineFaults [l] = true) :
    step g dec initState l = .error () := by
  unfold step initState
  by_cases h1 : jsStartsWith l "Program log:".toList = true
  · simp only [h1, if_true]
  · simp only [Bool.not_eq_true] at h1
    simp only [h1, Bool.false_eq_true, if_false]
    by_cases h2 : jsStartsWith l "Log truncated".toList = true
    · simp only [h2, if_true]
    · simp only [Bool.not_eq_true] at h2
      simp only [h2, Bool.false_eq_true, if_false]
      simp only [firstLineFaults, h1, h2, Bool.false_or] at hf
      cases h3 : findInvoke l with
      | some a => simp [h3] at hf
      | none =>
        simp only [h3, Option.isSome_none, Bool.not_false, Bool.true_and] at hf
        by_cases h4 : jsIncludes l "success".toList = true
        · simp only [h4, if_true]
        · simp only [Bool.not_eq_true] at h4
          simp only [h4, Bool.false_eq_true, if_false]
          have h5 : jsIncludes l "failed".toList = true := by
            rw [h4] at hf
            simpa using hf
          simp only [h5, if_true]

theorem step_init_ok (g : JSString → JSString) (dec : JSString → Option JSString)
    (l : JSString) (hf : firstLineFaults [l] = false) :
    ∃ s', step g dec initState l = .ok s' ∧ s'.prettyLogs ≠ [] := by
  unfold step initState
  simp only [firstLineFaults, Bool.or_eq_false_iff] at hf
  obtain ⟨⟨h1, h2⟩, h3⟩ := hf
  simp only [h1, h2, Bool.false_eq_true, if_false]
  cases hI : findInvoke l with
  | some a =>
    simp only [if_pos rfl]
    exact ⟨_, rfl, by simp⟩
  | none =>
    simp only [hI, Option.isSome_none, Bool.not_false, Bool.true_and] at h3
    obtain ⟨h4, h5⟩ := Bool.or_eq_false_iff.mp h3
    simp only [h4, h5, Bool.false_eq_true, if_false, if_pos rfl]
    exact ⟨_, rfl, by simp⟩

/-- Claim C1 (corrected).  The original claim states that `parseProgramLogs`
never fails on any input, including inputs whose first line is a
`Program log:` line, a `Log truncated` marker, a success marker, or a failure
marker.  In fact each of those branches dereferences
`prettyLogs[prettyLogs.length - 1]` with `prettyLogs` still empty and throws a
`TypeError`.  Amended claim: `parseProgramLogs` returns normally if and only
if the input is empty or its first line is an invocation marker or an
unrecognized (default-branch) line; equivalently, it throws exactly when
`firstLineFaults` holds of the input. -/
theorem parseProgramLogs_error_iff (logs : List JSString) (e : Option InstrError)
    (g : JSString → JSString) (dec : JSString → Option JSString) :
    parseProgramLogs logs e g dec = .error () ↔ firstLineFaults logs = true := by
  cases logs with
  | nil =>
    simp [parseProgramLogs, parseProgramLogsI, processLines, firstLineFaults]
  | cons l rest =>
    constructor
    · intro herr
      by_contra hf
      simp only [Bool.not_eq_true] at hf
      have hf1 : firstLineFaults [l] = false := hf
      obtain ⟨s1, hs1, hne⟩ := step_init_ok g dec l hf1
      obtain ⟨s', hs', -⟩ := processLines_ok_of_ne g dec rest s1 hne
      have : parseProgramLogs (l :: rest) e g dec =
          .ok ((finalizeErr e s'.prettyLogs.reverse).map ITrace.toInstructionLogs) := by
        unfold parseProgramLogs parseProgramLogsI processLines
        rw [hs1]
        simp only [hs']
      rw [this] at herr
      cases herr
    · intro hf
      have hf1 : firstLineFaults [l] = true := hf
      have herr := step_init_err g dec l hf1
      unfold parseProgramLogs parseProgramLogsI processLines
      rw [herr]

/-- Claim C1 (counterexample to the original claim): on the input whose first
line is a `Program log:` line, `parseProgramLogs` throws instead of returning
a sequence of traces. -/
theorem parseProgramLogs_throws_on_first_program_log :
    parseProgramLogs ["Program log: hi".toList] none (fun a => a) (fun _ => none) =
      .error () := by
  rfl

/-! ### Lines with no `consumed` match are left verbatim by the replace -/

theorem consumedReplaceF_no_match (fuel : Nat) : ∀ (s : JSString), hasConsumed s = false →
    consumedReplaceF fuel s = (s, []) := by
  induction fuel with
  | zero => intro s h; cases s <;> rfl
  | succ f ih =>
    intro s h
    cases s with
    | nil => rfl
    | cons c t =>
      unfold hasConsumed at h
      simp only [Bool.or_eq_false_iff] at h
      obtain ⟨h1, h2⟩ := h
      unfold consumedReplaceF
      cases hm : consumedMatchAt (c :: t) with
      | some v => rw [hm] at h1; cases h1
      | none => simp only [hm, ih t h2]

theorem consumedReplace_no_match {s : JSString} (h : hasConsumed s = false) :
    consumedReplace s = (s, []) :=
  consumedReplaceF_no_match s.length s h

theorem plainLine_spec {l : JSString} (hp : plainLine l = true) :
    jsStartsWith l "Program log:".toList = false ∧
    jsStartsWith l "Log truncated".toList = false ∧
    findInvoke l = none ∧
    jsIncludes l "success".toList = false ∧
    jsIncludes l "failed".toList = false ∧
    hasConsumed l = false := by
  unfold plainLine at hp
  simp only [Bool.and_eq_true, Bool.not_eq_true'] at hp
  obtain ⟨⟨⟨⟨⟨h1, h2⟩, h3⟩, h4⟩, h5⟩, h6⟩ := hp
  refine ⟨h1, h2, ?_, h4, h5, h6⟩
  cases hI : findInvoke l with
  | some a => rw [hI] at h3; cases h3
  | none => rfl

/-! ### The default branch on a plain line, from the states claim C2 visits -/

theorem step_plain (g : JSString → JSString) (dec : JSString → Option JSString)
    (l : JSString) (hp : plainLine l = true) (msgs : List LogMessage)
    (pr : List (JSString × Int)) :
    step g dec ⟨1, [⟨⟨none, msgs, .num 0, false, false⟩, pr⟩], []⟩ l =
      .ok ⟨1, [⟨⟨none, msgs ++ [⟨l, prefixBuilder 1, .muted⟩], .num 0, false, false⟩,
               pr ++ [(l, 1)]⟩], []⟩ := by
  obtain ⟨h1, h2, h3, h4, h5, h6⟩ := plainLine_spec hp
  unfold step
  simp only [h1, h2, h3, h4, h5, Bool.false_eq_true, if_false]
  simp [consumedReplace_no_match h6, pushLog, defaultTraceUpdate]

theorem step_plain_init (g : JSString → JSString) (dec : JSString → Option JSString)
    (l : JSString) (hp : plainLine l = true) :
    step g dec initState l =
      .ok ⟨1, [⟨⟨none, [⟨l, prefixBuilder 1, .muted⟩], .num 0, false, false⟩, [(l, 1)]⟩], []⟩ := by
  obtain ⟨h1, h2, h3, h4, h5, h6⟩ := plainLine_spec hp
  unfold step initState
  simp only [h1, h2, h3, h4, h5, Bool.false_eq_true, if_false]
  simp [consumedReplace_no_match h6, pushLog, newNullTrace, defaultTraceUpdate]

theorem processLines_plain (g : JSString → JSString) (dec : JSString → Option JSString) :
    ∀ (logs : List JSString), (∀ l ∈ logs, plainLine l = true) →
    ∀ (msgs : List LogMessage) (pr : List (JSString × Int)),
    processLines g dec ⟨1, [⟨⟨none, msgs, .num 0, false, false⟩, pr⟩], []⟩ logs =
      .ok ⟨1, [⟨⟨none, msgs ++ logs.map (fun l => ⟨l, prefixBuilder 1, .muted⟩),
                .num 0, false, false⟩,
               pr ++ logs.map (fun l => (l, 1))⟩], []⟩
  | [], _, msgs, pr => by simp [processLines]
  | l :: rest, h, msgs, pr => by
    unfold processLines
    rw [step_plain g dec l (h l (by simp)) msgs pr]
    simp only [processLines_plain g dec rest (fun x hx => h x (by simp [hx]))
      (msgs ++ [⟨l, prefixBuilder 1, .muted⟩]) (pr ++ [(l, 1)])]
    simp

/-- Claim C2 (corrected; amended statement).  For every nonempty input
sequence in which every line reaches the default branch unrewritten (it does
not start with `Program log:` or `Log truncated`, does not match the
invocation regex, contains neither `success` nor `failed`, and does not match
the `consumed` regex), with a null error descriptor, `parseProgramLogs`
produces exactly one trace whose `invokedProgram` is absent, whose
`computeUnits` is `0`, and whose `logs` contain each input line, in input
order, verbatim as a muted line at indent level 1. -/
theorem parseProgramLogs_plain_lines (logs : List JSString) (hne : logs ≠ [])
    (hp : ∀ l ∈ logs, plainLine l = true)
    (g : JSString → JSString) (dec : JSString → Option JSString) :
    parseProgramLogs logs none g dec =
      .ok [⟨none, logs.map (fun l => ⟨l, prefixBuilder 1, .muted⟩), .num 0, false, false⟩] := by
  cases logs with
  | nil => cases hne rfl
  | cons l rest =>
    unfold parseProgramLogs parseProgramLogsI processLines
    rw [step_plain_init g dec l (hp l (by simp))]
    simp only [processLines_plain g dec rest (fun x hx => hp x (by simp [hx]))
      [⟨l, prefixBuilder 1, .muted⟩] [(l, 1)]]
    simp [finalizeErr, ITrace.toInstructionLogs]

/-- Claim C2 (witness for the amended claim at a concrete input). -/
theorem parseProgramLogs_plain_lines_witness :
    parseProgramLogs ["hello".toList, "world".toList] none (fun a => a) (fun _ => none) =
      .ok [⟨none, ["hello".toList, "world".toList].map
            (fun l => ⟨l, prefixBuilder 1, .muted⟩), .num 0, false, false⟩] :=
  parseProgramLogs_plain_lines ["hello".toList, "world".toList] (by decide) (by decide)
    (fun a => a) (fun _ => none)

/-- Claim C2 (counterexample to the original claim): the empty input contains
no invoke, consumed, success, or failed marker, yet zero traces (not one) are
produced; and a `Program log:` line (which also contains none of those
markers) is rewritten, not preserved verbatim, so its trace's logs do not
contain the input line. -/
theorem parseProgramLogs_c2_counterexample :
    parseProgramLogs [] none (fun a => a) (fun _ => none) = .ok [] ∧
    parseProgramLogs ["x".toList, "Program log: hi".toList] none (fun a => a) (fun _ => none) =
      .ok [⟨none, [⟨"x".toList, "> ".toList, .muted⟩,
                   ⟨"Program logged: \"hi\"".toList, "> ".toList, .muted⟩],
            .num 0, false, false⟩] ∧
    "Program logged: \"hi\"".toList ≠ "Program log: hi".toList :=
  ⟨rfl, rfl, by decide⟩

/-! ### Compute units: the recorded default-branch lines determine `computeUnits` -/

theorem cuSpec_nil : cuSpec [] = .num 0 := rfl

theorem cuSpec_append (pr : List (JSString × Int)) (l : JSString) (d : Int) :
    cuSpec (pr ++ [(l, d)]) =
      if d = 1 then (consumedReplace l).2.foldl jsAdd (cuSpec pr) else cuSpec pr := by
  unfold cuSpec
  rw [List.filterMap_append]
  by_cases hd : d = 1
  · simp [hd, List.foldl_append]
  · simp [hd]

theorem defaultTraceUpdate_cuProc (dec : JSString → Option JSString)
    (stackTop : Option JSString) (t : ITrace) (log : JSString) (depth : Int) :
    (defaultTraceUpdate dec stackTop t log depth).computeUnits =
      (if depth = 1 then (consumedReplace log).2.foldl jsAdd t.computeUnits
       else t.computeUnits) ∧
    (defaultTraceUpdate dec stackTop t log depth).procd = t.procd ++ [(log, depth)] := by
  unfold defaultTraceUpdate
  by_cases hone : depth = 1
  · simp only [hone, if_pos rfl]
    constructor
    · split
      · split <;> simp [pushLog]
      · simp [pushLog]
    · split
      · split <;> simp [pushLog]
      · simp [pushLog]
  · simp only [if_neg hone]
    constructor
    · split
      · split <;> simp [pushLog]
      · simp [pushLog]
    · split
      · split <;> simp [pushLog]
      · simp [pushLog]

theorem step_cuInv (g : JSString → JSString) (dec : JSString → Option JSString)
    (s : PState) (l : JSString) (s' : PState) (hs : step g dec s l = .ok s')
    (inv : ∀ t ∈ s.prettyLogs, t.computeUnits = cuSpec t.procd) :
    ∀ t ∈ s'.prettyLogs, t.computeUnits = cuSpec t.procd := by
  unfold step at hs
  by_cases h1 : jsStartsWith l "Program log:".toList = true
  · simp only [h1, if_true] at hs
    cases hpl : s.prettyLogs with
    | nil => rw [hpl] at hs; cases hs
    | cons t0 rest =>
      rw [hpl] at hs
      cases hs
      intro t ht
      rcases List.mem_cons.mp ht with h | h
      · subst h
        simpa [pushLog] using inv t0 (by rw [hpl]; simp)
      · exact inv t (by rw [hpl]; exact List.mem_cons_of_mem _ h)
  · simp only [Bool.not_eq_true] at h1
    simp only [h1, Bool.false_eq_true, if_false] at hs
    by_cases h2 : jsStartsWith l "Log truncated".toList = true
    · simp only [h2, if_true] at hs
      cases hpl : s.prettyLogs with
      | nil => rw [hpl] at hs; cases hs
      | cons t0 rest =>
        rw [hpl] at hs
        cases hs
        intro t ht
        rcases List.mem_cons.mp ht with h | h
        · subst h
          simpa using inv t0 (by rw [hpl]; simp)
        · exact inv t (by rw [hpl]; exact List.mem_cons_of_mem _ h)
    · simp only [Bool.not_eq_true] at h2
      simp only [h2, Bool.false_eq_true, if_false] at hs
      cases hI : findInvoke l with
      | some a =>
        simp only [hI] at hs
        by_cases hd : s.depth = 0
        · rw [if_pos hd] at hs
          cases hs
          intro t ht
          rcases List.mem_cons.mp ht with h | h
          · subst h
            rfl
          · exact inv t h
        · rw [if_neg hd] at hs
          cases hpl : s.prettyLogs with
          | nil => rw [hpl] at hs; cases hs
          | cons t0 rest =>
            rw [hpl] at hs
            cases hs
            intro t ht
            rcases List.mem_cons.mp ht with h | h
            · subst h
              simpa [pushLog] using inv t0 (by rw [hpl]; simp)
            · exact inv t (by rw [hpl]; exact List.mem_cons_of_mem _ h)
      | none =>
        simp only [hI] at hs
        by_cases h4 : jsIncludes l "success".toList = true
        · simp only [h4, if_true] at hs
          cases hpl : s.prettyLogs with
          | nil => rw [hpl] at hs; cases hs
          | cons t0 rest =>
            rw [hpl] at hs
            cases hs
            intro t ht
            rcases List.mem_cons.mp ht with h | h
            · subst h
              simpa [pushLog] using inv t0 (by rw [hpl]; simp)
            · exact inv t (by rw [hpl]; exact List.mem_cons_of_mem _ h)
        · simp only [Bool.not_eq_true] at h4
          simp only [h4, Bool.false_eq_true, if_false] at hs
          by_cases h5 : jsIncludes l "failed".toList = true
          · simp only [h5, if_true] at hs
            cases hpl : s.prettyLogs with
            | nil => rw [hpl] at hs; cases hs
            | cons t0 rest =>
              rw [hpl] at hs
              cases hs
              intro t ht
              rcases List.mem_cons.mp ht with h | h
              · subst h
                simpa [pushLog] using inv t0 (by rw [hpl]; simp)
              · exact inv t (by rw [hpl]; exact List.mem_cons_of_mem _ h)
          · simp only [Bool.not_eq_true] at h5
            simp only [h5, Bool.false_eq_true, if_false] at hs
            by_cases hd : s.depth = 0
            · simp only [hd, if_pos rfl] at hs
              cases hs
              intro t ht
              rcases List.mem_cons.mp ht with h | h
              · subst h
                obtain ⟨hcu, hpr⟩ := defaultTraceUpdate_cuProc dec s.currentProgram.head?
                  newNullTrace l (if True then 0 + 1 else 0)
                rw [hcu, hpr, cuSpec_append]
                norm_num [newNullTrace, cuSpec_nil]
              · exact inv t h
            · simp only [if_neg hd] at hs
              cases hpl : s.prettyLogs with
              | nil => rw [hpl] at hs; cases hs
              | cons t0 rest =>
                rw [hpl] at hs
                cases hs
                intro t ht
                rcases List.mem_cons.mp ht with h | h
                · subst h
                  have h0 : t0.computeUnits = cuSpec t0.procd := inv t0 (by rw [hpl]; simp)
                  obtain ⟨hcu, hpr⟩ := defaultTraceUpdate_cuProc dec s.currentProgram.head?
                    t0 l s.depth
                  rw [hcu, hpr, cuSpec_append, h0]
                · exact inv t (by rw [hpl]; exact List.mem_cons_of_mem _ h)

theorem processLines_cuInv (g : JSString → JSString) (dec : JSString → Option JSString) :
    ∀ (logs : List JSString) (s s' : PState),
    processLines g dec s logs = .ok s' →
    (∀ t ∈ s.prettyLogs, t.computeUnits = cuSpec t.procd) →
    ∀ t ∈ s'.prettyLogs, t.computeUnits = cuSpec t.procd
  | [], s, s', h, inv => by
    unfold processLines at h
    cases h
    exact inv
  | l :: rest, s, s', h, inv => by
    unfold processLines at h
    cases hstep : step g dec s l with
    | error e => rw [hstep] at h; cases h
    | ok s1 =>
      rw [hstep] at h
      exact processLines_cuInv g dec rest s1 s' h (step_cuInv g dec s l s1 hstep inv)

theorem modifyLast_pres {α : Type} {P : α → Prop} (f : α → α) (hf : ∀ a, P a → P (f a)) :
    ∀ (ts : List α), (∀ a ∈ ts, P a) → ∀ b ∈ modifyLast f ts, P b
  | [], _, b, hb => by cases hb
  | [a], h, b, hb => by
    simp only [modifyLast, List.mem_singleton] at hb
    subst hb
    exact hf a (h a (by simp))
  | a :: c :: r, h, b, hb => by
    unfold modifyLast at hb
    rcases List.mem_cons.mp hb with h1 | h1
    · subst h1
      exact h _ (by simp)
    · exact modifyLast_pres f hf (c :: r) (fun x hx => h x (List.mem_cons_of_mem _ hx)) b h1

theorem finalizeErr_cuInv (e : Option InstrError) (ts : List ITrace)
    (inv : ∀ t ∈ ts, t.computeUnits = cuSpec t.procd) :
    ∀ t ∈ finalizeErr e ts, t.computeUnits = cuSpec t.procd := by
  have hMark : ∀ (a : ITrace) (m : LogMessage), a.computeUnits = cuSpec a.procd →
      ({ a with failed := true, logs := a.logs ++ [m] } : ITrace).computeUnits =
        cuSpec ({ a with failed := true, logs := a.logs ++ [m] } : ITrace).procd := by
    intro a m ha
    simpa using ha
  have hE : ∀ t ∈ ts ++ [emptyFailedTrace], t.computeUnits = cuSpec t.procd := by
    intro t ht
    rcases List.mem_append.mp ht with hh | hh
    · exact inv t hh
    · simp only [List.mem_singleton] at hh
      subst hh
      rfl
  unfold finalizeErr
  cases e with
  | none => simpa using inv
  | some err =>
    simp only
    split
    · split
      · refine modifyLast_pres _ (fun a ha => ?_) _ hE
        split
        · exact ha
        · exact hMark a _ ha
      · exact hE
    · split
      · refine modifyLast_pres _ (fun a ha => ?_) _ inv
        split
        · exact ha
        · exact hMark a _ ha
      · exact inv

theorem parseProgramLogsI_cu (logs : List JSString) (e : Option InstrError)
    (g : JSString → JSString) (dec : JSString → Option JSString) (ts : List ITrace)
    (h : parseProgramLogsI logs e g dec = .ok ts) :
    ∀ t ∈ ts, t.computeUnits = cuSpec t.procd := by
  unfold parseProgramLogsI at h
  cases hrun : processLines g dec initState logs with
  | error e' => rw [hrun] at h; cases h
  | ok s =>
    rw [hrun] at h
    cases h
    have inv0 : ∀ t ∈ initState.prettyLogs, t.computeUnits = cuSpec t.procd := by
      intro t ht
      cases ht
    have inv := processLines_cuInv g dec logs initState s hrun inv0
    exact finalizeErr_cuInv e _ (fun t ht => inv t (List.mem_reverse.mp ht))

/-- Claim C3 (confirmed).  Every returned trace's `computeUnits` equals the
`jsAdd`-sum of the values of the `consumed`-regex matches of exactly those
lines processed for that trace by the default (consumption) branch while the
invocation depth was exactly `1` (`cuSpec` of the trace's ghost record of
processed lines); in particular a consumed line processed at depth 2 or
deeper, or at depth 0 or below, never contributes to any trace's
`computeUnits`.  The instrumented run projects to `parseProgramLogs`. -/
theorem computeUnits_eq_depth1_consumed_sum (logs : List JSString)
    (e : Option InstrError) (g : JSString → JSString) (dec : JSString → Option JSString)
    (ts : List ITrace) (h : parseProgramLogsI logs e g dec = .ok ts) :
    parseProgramLogs logs e g dec = .ok (ts.map ITrace.toInstructionLogs) ∧
    ∀ t ∈ ts, t.computeUnits = cuSpec t.procd := by
  constructor
  · unfold parseProgramLogs
    rw [h]
  · exact parseProgramLogsI_cu logs e g dec ts h

/-- Claim C3 (witness): a nested invocation that itself reports consumption;
only the depth-1 consumption line contributes to `computeUnits`. -/
theorem computeUnits_eq_depth1_consumed_sum_witness :
    parseProgramLogsI ["Program A invoke [1]".toList, "Program B invoke [2]".toList,
          "Program B consumed 7 of 100 compute units".toList, "Program B success".toList,
          "Program A consumed 100 of 200000 compute units".toList, "Program A success".toList]
        none (fun a => a) (fun _ => none) =
      .ok [⟨⟨some "A".toList,
            [⟨"Program invoked: B".toList, "> ".toList, .info⟩,
             ⟨"Program consumed: 7 of 100 compute units".toList,
              Char.ofNat 160 :: Char.ofNat 160 :: "> ".toList, .muted⟩,
             ⟨"Program returned success".toList,
              Char.ofNat 160 :: Char.ofNat 160 :: "> ".toList, .success⟩,
             ⟨"Program consumed: 100 of 200000 compute units".toList, "> ".toList, .muted⟩,
             ⟨"Program returned success".toList, "> ".toList, .success⟩],
            .num 100, false, false⟩,
           [("Program B consumed 7 of 100 compute units".toList, 2),
            ("Program A consumed 100 of 200000 compute units".toList, 1)]⟩] ∧
    ∀ t ∈ [(⟨⟨some "A".toList,
            [⟨"Program invoked: B".toList, "> ".toList, .info⟩,
             ⟨"Program consumed: 7 of 100 compute units".toList,
              Char.ofNat 160 :: Char.ofNat 160 :: "> ".toList, .muted⟩,
             ⟨"Program returned success".toList,
              Char.ofNat 160 :: Char.ofNat 160 :: "> ".toList, .success⟩,
             ⟨"Program consumed: 100 of 200000 compute units".toList, "> ".toList, .muted⟩,
             ⟨"Program returned success".toList, "> ".toList, .success⟩],
            .num 100, false, false⟩,
           [("Program B consumed 7 of 100 compute units".toList, 2),
            ("Program A consumed 100 of 200000 compute units".toList, 1)]⟩ : ITrace)],
      t.computeUnits = cuSpec t.procd :=
  ⟨by rfl,
   (computeUnits_eq_depth1_consumed_sum
      ["Program A invoke [1]".toList, "Program B invoke [2]".toList,
       "Program B consumed 7 of 100 compute units".toList, "Program B success".toList,
       "Program A consumed 100 of 200000 compute units".toList, "Program A success".toList]
      none (fun a => a) (fun _ => none) _ (by rfl)).2⟩

/-! ### Every value the consumption callback can add is a `parseInt` result -/

theorem consumedReplaceF_vals (fuel : Nat) : ∀ (s : JSString) (v : JSNum),
    v ∈ (consumedReplaceF fuel s).2 → ∃ p, v = jsParseInt p := by
  induction fuel with
  | zero =>
    intro s v hv
    cases s <;> simp [consumedReplaceF] at hv
  | succ f ih =>
    intro s v hv
    cases s with
    | nil => simp [consumedReplaceF] at hv
    | cons c t =>
      unfold consumedReplaceF at hv
      cases hm : consumedMatchAt (c :: t) with
      | some triple =>
        obtain ⟨p1, p2, rem⟩ := triple
        rw [hm] at hv
        simp only [List.mem_cons] at hv
        rcases hv with h | h
        · exact ⟨p1, h⟩
        · exact ih rem v h
      | none =>
        rw [hm] at hv
        simp only at hv
        exact ih t v hv

theorem foldl_jsAdd_ok (vs : List JSNum) (hv : ∀ v ∈ vs, ∃ p, v = jsParseInt p) :
    ∀ (acc : JSNum), (acc = .nan ∨ ∃ n : Int, acc = .num n ∧ 0 ≤ n) →
      (vs.foldl jsAdd acc = .nan ∨ ∃ n : Int, vs.foldl jsAdd acc = .num n ∧ 0 ≤ n) := by
  induction vs with
  | nil => intro acc h; simpa using h
  | cons v vs ih =>
    intro acc hacc
    simp only [List.foldl_cons]
    refine ih (fun x hx => hv x (List.mem_cons_of_mem _ hx)) (jsAdd acc v) ?_
    obtain ⟨p, hp⟩ := hv v (by simp)
    subst hp
    unfold jsParseInt
    rcases hacc with h | ⟨n, hn, hnn⟩
    · subst h
      simp [jsAdd]
    · subst hn
      split
      · simp [jsAdd]
      · refine Or.inr ⟨n + digitsToNat p, by simp [jsAdd], by positivity⟩

theorem cuSpec_ok (pr : List (JSString × Int)) :
    cuSpec pr = .nan ∨ ∃ n : Int, cuSpec pr = .num n ∧ 0 ≤ n := by
  unfold cuSpec
  refine foldl_jsAdd_ok _ ?_ _ (Or.inr ⟨0, rfl, le_refl 0⟩)
  intro v hv
  rcases List.mem_flatten.mp hv with ⟨grp, hgrp, hvg⟩
  rcases List.mem_filterMap.mp hgrp with ⟨⟨l, d⟩, -, hld⟩
  by_cases hd : d = 1
  · rw [if_pos hd] at hld
    cases hld
    exact consumedReplaceF_vals l.length l v hvg
  · rw [if_neg hd] at hld
    cases hld

/-- Claim C9 (corrected; amended statement).  For every input, every trace's
`computeUnits` is a non-negative integer or `NaN` (the `NaN` case arises from
`Number.parseInt` of an empty `(\d*)` capture). -/
theorem computeUnits_nonneg_or_nan (logs : List JSString) (e : Option InstrError)
    (g : JSString → JSString) (dec : JSString → Option JSString)
    (ts : List InstructionLogs) (h : parseProgramLogs logs e g dec = .ok ts) :
    ∀ t ∈ ts, t.computeUnits = .nan ∨ ∃ n : Int, t.computeUnits = .num n ∧ 0 ≤ n := by
  unfold parseProgramLogs at h
  cases hI : parseProgramLogsI logs e g dec with
  | error e' => rw [hI] at h; cases h
  | ok its =>
    rw [hI] at h
    cases h
    intro t ht
    obtain ⟨it, hit, rfl⟩ := List.mem_map.mp ht
    have hcu := parseProgramLogsI_cu logs e g dec its hI it hit
    show it.computeUnits = .nan ∨ ∃ n : Int, it.computeUnits = .num n ∧ 0 ≤ n
    rw [hcu]
    exact cuSpec_ok it.procd

/-- Claim C9 (witness for the amended claim at a concrete input). -/
theorem computeUnits_nonneg_or_nan_witness :
    (⟨none, [⟨"hello".toList, "> ".toList, .muted⟩], .num 0, false, false⟩ : InstructionLogs).computeUnits = .nan ∨
    ∃ n : Int, (⟨none, [⟨"hello".toList, "> ".toList, .muted⟩], .num 0, false, false⟩ : InstructionLogs).computeUnits = .num n ∧ 0 ≤ n :=
  computeUnits_nonneg_or_nan ["hello".toList] none (fun a => a) (fun _ => none)
    [⟨none, [⟨"hello".toList, "> ".toList, .muted⟩], .num 0, false, false⟩] (by rfl)
    ⟨none, [⟨"hello".toList, "> ".toList, .muted⟩], .num 0, false, false⟩ (by simp)

/-- Claim C9 (counterexample to the original claim): a `consumed` line whose
`(\d*)` capture is empty (`Program A consumed  x`, two spaces) is parsed by
`Number.parseInt` as `NaN`, which is added to the open trace's `computeUnits`
at depth 1, so the returned `computeUnits` is `NaN`, not a non-negative
integer. -/
theorem computeUnits_nan_counterexample :
    parseProgramLogs ["Program A consumed  x".toList] none (fun a => a) (fun _ => none) =
      .ok [⟨none, [⟨"Program consumed:  x".toList, "> ".toList, .muted⟩], .nan, false, false⟩] ∧
    (JSNum.nan ∉ {x : JSNum | ∃ n : Int, x = .num n ∧ 0 ≤ n}) :=
  ⟨by rfl, by simp⟩

/-! ### Claim C5: the truncation marker -/

theorem truncated_not_programLog {l : JSString}
    (h : jsStartsWith l "Log truncated".toList = true) :
    jsStartsWith l "Program log:".toList = false := by
  obtain ⟨r, rfl⟩ := jsStartsWith_eq_append h
  simp [jsStartsWith, List.isPrefixOf]

/-- Claim C5 (confirmed).  Processing a line starting with `Log truncated`
while at least one trace is open sets `truncated := true` on the last trace
and changes nothing else: no log line is appended anywhere, no trace is
created or removed, the depth and the invocation stack are unchanged, and the
`invokedProgram`, `logs`, `computeUnits` and `failed` fields of every trace
are unchanged. -/
theorem truncated_line_sets_flag_only (g : JSString → JSString)
    (dec : JSString → Option JSString) (s : PState) (log : JSString)
    (t : ITrace) (rest : List ITrace) (hopen : s.prettyLogs = t :: rest)
    (hlt : jsStartsWith log "Log truncated".toList = true) :
    step g dec s log =
      .ok { depth := s.depth,
            prettyLogs := { t with truncated := true } :: rest,
            currentProgram := s.currentProgram } ∧
    ({ t with truncated := true } : ITrace).invokedProgram = t.invokedProgram ∧
    ({ t with truncated := true } : ITrace).logs = t.logs ∧
    ({ t with truncated := true } : ITrace).computeUnits = t.computeUnits ∧
    ({ t with truncated := true } : ITrace).failed = t.failed ∧
    ({ t with truncated := true } : ITrace).truncated = true ∧
    (({ t with truncated := true } : ITrace) :: rest).length = s.prettyLogs.length := by
  refine ⟨?_, rfl, rfl, rfl, rfl, rfl, by rw [hopen]; rfl⟩
  unfold step
  rw [truncated_not_programLog hlt]
  simp only [Bool.false_eq_true, if_false, hlt, if_true, hopen]

/-! ### Claim C7: the prefix builder -/

theorem replicate_flatten_indentTokens : ∀ n : Nat,
    (List.replicate n ("  ".toList)).flatten = indentTokens n
  | 0 => rfl
  | n + 1 => by
    rw [List.replicate_succ, List.flatten_cons, replicate_flatten_indentTokens n]
    rfl

/-- Claim C7 (confirmed).  For every indent level `L ≥ 1` the built prefix is
exactly `(L-1)` copies of the two-character indent token (two non-breaking
spaces) followed by `"> "`, and no diagnostic is emitted; for every `L ≤ 0` a
diagnostic is emitted and the returned prefix is exactly `"> "`. -/
theorem prefixBuilder_spec (L : Int) :
    (1 ≤ L → prefixBuilder L = specPrefix L ∧ prefixBuilderWarns L = false) ∧
    (L ≤ 0 → prefixBuilder L = "> ".toList ∧ prefixBuilderWarns L = true) := by
  constructor
  · intro h1
    have hneg : ¬(L ≤ 0) := by omega
    refine ⟨?_, ?_⟩
    · unfold prefixBuilder specPrefix
      rw [if_neg hneg, replicate_flatten_indentTokens]
    · exact decide_eq_false hneg
  · intro h0
    refine ⟨?_, ?_⟩
    · unfold prefixBuilder
      rw [if_pos h0]
      rfl
    · exact decide_eq_true h0

/-- Claim C7 (witness at concrete indent levels 3 and 0). -/
theorem prefixBuilder_spec_witness :
    (prefixBuilder 3 = specPrefix 3 ∧ prefixBuilderWarns 3 = false) ∧
    (prefixBuilder 0 = "> ".toList ∧ prefixBuilderWarns 0 = true) :=
  ⟨(prefixBuilder_spec 3).1 (by decide), (prefixBuilder_spec 0).2 (by decide)⟩

/-- Claim C5 (witness at a concrete open-trace state). -/
theorem truncated_line_sets_flag_only_witness :
    step (fun a => a) (fun _ => none)
      ⟨1, [⟨⟨some "A".toList, [], .num 0, false, false⟩, []⟩], ["A".toList]⟩
      "Log truncated".toList =
      .ok ⟨1, [⟨⟨some "A".toList, [], .num 0, true, false⟩, []⟩], ["A".toList]⟩ :=
  (truncated_line_sets_flag_only (fun a => a) (fun _ => none)
    ⟨1, [⟨⟨some "A".toList, [], .num 0, false, false⟩, []⟩], ["A".toList]⟩
    "Log truncated".toList ⟨⟨some "A".toList, [], .num 0, false, false⟩, []⟩ [] rfl
    (by decide)).1

/-! ### Claim C8: the passive-tense rewrite of `Program log:` lines -/

theorem takeWhile_all {p : Char → Bool} : ∀ (l : JSString), (∀ c ∈ l, p c = true) →
    l.takeWhile p = l
  | [], _ => rfl
  | c :: t, h => by
    rw [List.takeWhile_cons, if_pos (h c (by simp)), takeWhile_all t (fun x hx => h x (by simp [hx]))]

theorem dropWhile_all {p : Char → Bool} : ∀ (l : JSString), (∀ c ∈ l, p c = true) →
    l.dropWhile p = []
  | [], _ => rfl
  | c :: t, h => by
    rw [List.dropWhile_cons, if_pos (h c (by simp))]
    exact dropWhile_all t (fun x hx => h x (by simp [hx]))

theorem programLogReplaceF_nil (fuel : Nat) : programLogReplaceF fuel [] = [] := by
  cases fuel <;> rfl

theorem programLogReplaceF_pl (fuel : Nat) (X : JSString)
    (hn : ∀ c ∈ X, ((c == '\n') = false)) :
    programLogReplaceF (fuel + 1) ("Program log: ".toList ++ X) =
      "Program logged: \"".toList ++ X ++ ['"'] := by
  rw [show "Program log: ".toList ++ X = 'P' :: ("rogram log: ".toList ++ X) from rfl]
  unfold programLogReplaceF
  rw [show ('P' :: ("rogram log: ".toList ++ X)) = "Program log: ".toList ++ X from rfl,
    dropPre_append]
  simp only
  rw [takeWhile_all X (fun c hc => by simp [hn c hc]),
    dropWhile_all X (fun c hc => by simp [hn c hc]), programLogReplaceF_nil]
  simp

theorem programLogReplace_pl (X : JSString) (hn : ∀ c ∈ X, ((c == '\n') = false)) :
    programLogReplace ("Program log: ".toList ++ X) =
      "Program logged: \"".toList ++ X ++ ['"'] := by
  unfold programLogReplace
  have h13 : ("Program log: ".toList).length = 13 := rfl
  have hlen : ("Program log: ".toList ++ X).length = X.length + 13 := by
    rw [List.length_append, h13]
    omega
  rw [hlen]
  exact programLogReplaceF_pl (X.length + 12) X hn

theorem startsWith_program_log (X : JSString) :
    jsStartsWith ("Program log: ".toList ++ X) "Program log:".toList = true := by
  rw [show "Program log: ".toList ++ X = "Program log:".toList ++ (' ' :: X) from rfl]
  exact jsStartsWith_append _ _

theorem jsIncludes_of_prefix {s sub : JSString} (h : sub.isPrefixOf s = true) :
    jsIncludes s sub = true := by
  cases s with
  | nil => exact h
  | cons c t =>
    unfold jsIncludes
    rw [h]
    rfl

theorem jsIncludes_cons {t sub : JSString} (c : Char) (h : jsIncludes t sub = true) :
    jsIncludes (c :: t) sub = true := by
  unfold jsIncludes
  rw [h]
  simp

theorem jsIncludes_infix (a sub b : JSString) : jsIncludes (a ++ (sub ++ b)) sub = true := by
  induction a with
  | nil =>
    rw [List.nil_append]
    exact jsIncludes_of_prefix (List.isPrefixOf_iff_prefix.mpr ⟨b, rfl⟩)
  | cons c a ih =>
    rw [List.cons_append]
    exact jsIncludes_cons c ih

/-- Claim C8 (corrected; amended statement).  For every line of the form
`Program log: X` where the message `X` contains no newline, processed while at
least one trace is open, exactly one muted line is appended to the last trace,
its text is `Program logged: "X"`, and the original message `X` occurs as a
substring of the rewritten text.  (For `X` containing a newline the JavaScript
regex `.` stops at the newline, so the rewrite quotes only the first line of
the message.) -/
theorem program_log_line_rewrite (g : JSString → JSString)
    (dec : JSString → Option JSString) (s : PState) (X : JSString)
    (t : ITrace) (rest : List ITrace) (hopen : s.prettyLogs = t :: rest)
    (hn : ∀ c ∈ X, ((c == '\n') = false)) :
    step g dec s ("Program log: ".toList ++ X) =
      .ok { s with prettyLogs := pushLog t ⟨"Program logged: \"".toList ++ X ++ ['"'], prefixBuilder s.depth, .muted⟩ :: rest } ∧
    jsIncludes ("Program logged: \"".toList ++ X ++ ['"']) X = true := by
  constructor
  · unfold step
    simp only [startsWith_program_log X, if_true, hopen, programLogReplace_pl X hn]
  · rw [show "Program logged: \"".toList ++ X ++ ['"'] =
        "Program logged: \"".toList ++ (X ++ ['"']) from by simp]
    have := jsIncludes_infix ("Program logged: \"".toList) X ['"']
    simpa using this

/-- Claim C8 (witness at a concrete open-trace state and message). -/
theorem program_log_line_rewrite_witness :
    step (fun a => a) (fun _ => none)
      ⟨1, [⟨⟨some "A".toList, [], .num 0, false, false⟩, []⟩], ["A".toList]⟩
      ("Program log: ".toList ++ "hi".toList) =
      .ok ⟨1, [⟨⟨some "A".toList,
                [⟨"Program logged: \"hi\"".toList, "> ".toList, .muted⟩],
                .num 0, false, false⟩, []⟩], ["A".toList]⟩ ∧
    jsIncludes ("Program logged: \"".toList ++ "hi".toList ++ ['"']) "hi".toList = true := by
  have h := program_log_line_rewrite (fun a => a) (fun _ => none)
    ⟨1, [⟨⟨some "A".toList, [], .num 0, false, false⟩, []⟩], ["A".toList]⟩
    "hi".toList ⟨⟨some "A".toList, [], .num 0, false, false⟩, []⟩ [] rfl (by decide)
  exact ⟨h.1, h.2⟩

/-- Claim C8 (counterexample to the original claim): for the message
`a\nb`, the rewritten text is `Program logged: "a"` followed by the raw
remainder `\nb` — not `Program logged: "a\nb"` — and the original message no
longer occurs as a substring of the rewritten text. -/
theorem program_log_newline_counterexample :
    parseProgramLogs ["Program A invoke [1]".toList, "Program log: a\nb".toList]
      none (fun a => a) (fun _ => none) =
      .ok [⟨some "A".toList,
           [⟨"Program logged: \"a\"\nb".toList, "> ".toList, .muted⟩],
           .num 0, false, false⟩] ∧
    "Program logged: \"a\"\nb".toList ≠ "Program logged: \"a\nb\"".toList ∧
    jsIncludes "Program logged: \"a\"\nb".toList "a\nb".toList = false :=
  ⟨by rfl, by decide, by decide⟩

/-! ### Claim C4: the failure marker -/

theorem jsSlice_nonneg {i : Int} (h : 0 ≤ i) (s : JSString) : jsSlice s i = s.drop i.toNat := by
  simp only [jsSlice]
  rw [if_neg (by omega)]
  rcases le_or_lt i (s.length : Int) with hle | hlt
  · rw [min_eq_left hle]
  · rw [min_eq_right hlt.le]
    have h1 : ((s.length : Int)).toNat = s.length := by omega
    rw [h1, List.drop_length]
    have h2 : s.length ≤ i.toNat := by omega
    rw [List.drop_eq_nil_of_le h2]

theorem afterFirstSep_some {sep : JSString} (hsep : sep ≠ []) : ∀ {s m : JSString},
    afterFirstSep sep s = some m →
    0 ≤ jsIndexOf s sep ∧ jsSlice s (jsIndexOf s sep + sep.length) = m := by
  intro s
  induction s with
  | nil =>
    intro m h
    unfold afterFirstSep dropPre at h
    split at h
    · rename_i hpre
      rcases List.isPrefixOf_iff_prefix.mp hpre with ⟨r, hr⟩
      exact absurd (List.append_eq_nil.mp hr).1 hsep
    · cases h
  | cons c t ih =>
    intro m h
    unfold afterFirstSep at h
    by_cases hpre : sep.isPrefixOf (c :: t) = true
    · have hd : dropPre sep (c :: t) = some ((c :: t).drop sep.length) := by
        unfold dropPre
        rw [if_pos hpre]
      rw [hd] at h
      cases h
      have hidx : jsIndexOf (c :: t) sep = 0 := by
        unfold jsIndexOf
        rw [if_pos hpre]
      rw [hidx]
      refine ⟨le_refl 0, ?_⟩
      rw [jsSlice_nonneg (by omega) _]
      congr 1
      omega
    · have hd : dropPre sep (c :: t) = none := by
        unfold dropPre
        rw [if_neg hpre]
      rw [hd] at h
      simp only at h
      obtain ⟨hnn, hsl⟩ := ih h
      have hidx : jsIndexOf (c :: t) sep = jsIndexOf t sep + 1 := by
        conv_lhs => unfold jsIndexOf
        rw [if_neg hpre]
        show (if jsIndexOf t sep < 0 then (-1 : Int) else jsIndexOf t sep + 1) =
          jsIndexOf t sep + 1
        rw [if_neg (by omega)]
      rw [hidx]
      refine ⟨by omega, ?_⟩
      rw [jsSlice_nonneg (by positivity) _] at hsl
      rw [jsSlice_nonneg (by positivity) _]
      rw [show jsIndexOf t sep + 1 + sep.length = (jsIndexOf t sep + sep.length) + 1 from by ring]
      rw [show ((jsIndexOf t sep + sep.length) + 1).toNat = (jsIndexOf t sep + sep.length).toNat + 1 from by omega]
      rw [List.drop_succ_cons]
      exact hsl

theorem afterFirstSep_none {sep : JSString} : ∀ {s : JSString},
    afterFirstSep sep s = none → jsIndexOf s sep = -1 := by
  intro s
  induction s with
  | nil =>
    intro h
    unfold afterFirstSep at h
    unfold jsIndexOf
    split
    · rename_i hpre
      unfold dropPre at h
      rw [if_pos hpre] at h
      cases h
    · rfl
  | cons c t ih =>
    intro h
    unfold afterFirstSep at h
    by_cases hpre : sep.isPrefixOf (c :: t) = true
    · unfold dropPre at h
      rw [if_pos hpre] at h
      simp at h
    · have hd : dropPre sep (c :: t) = none := by
        unfold dropPre
        rw [if_neg hpre]
      rw [hd] at h
      simp only at h
      have hrec := ih h
      conv_lhs => unfold jsIndexOf
      rw [if_neg hpre]
      show (if jsIndexOf t sep < 0 then (-1 : Int) else jsIndexOf t sep + 1) = -1
      rw [if_pos (by rw [hrec]; decide)]

/-- Claim C4 (corrected; amended statement).  When a line containing `failed`
(not matching the `Program log:`, truncation, or invocation patterns, and not
containing `success`) is processed while at least one trace is open, the
interpreter pops the invocation stack, marks the last trace failed, and
appends exactly one warning-styled line whose text is
`Program returned error: "<m>"`, where `<m>` is the substring after the first
`": "` when the line contains `": "` and otherwise the line with its first
character removed; if the line itself starts with `failed`, the depth is
instead incremented by one first and the appended text is the full line with
its first character upper-cased; in both cases the depth is then decremented
by one. -/
theorem failed_line_handling (g : JSString → JSString)
    (dec : JSString → Option JSString) (s : PState) (log : JSString)
    (t : ITrace) (rest : List ITrace) (hopen : s.prettyLogs = t :: rest)
    (h1 : jsStartsWith log "Program log:".toList = false)
    (h2 : jsStartsWith log "Log truncated".toList = false)
    (h3 : findInvoke log = none)
    (h4 : jsIncludes log "success".toList = false)
    (h5 : jsIncludes log "failed".toList = true) :
    step g dec s log =
      .ok { depth := (if jsStartsWith log "failed".toList then s.depth + 1 else s.depth) - 1, prettyLogs := pushLog { t with failed := true } ⟨failedLineText log, prefixBuilder (if jsStartsWith log "failed".toList then s.depth + 1 else s.depth), .warning⟩ :: rest, currentProgram := s.currentProgram.tail } ∧
    (jsStartsWith log "failed".toList = true → failedLineText log = upperFirst log) ∧
    (jsStartsWith log "failed".toList = false →
      ∀ m, afterFirstSep ": ".toList log = some m →
        failedLineText log = "Program returned error: \"".toList ++ m ++ ['"']) ∧
    (jsStartsWith log "failed".toList = false →
      afterFirstSep ": ".toList log = none →
        failedLineText log = "Program returned error: \"".toList ++ log.drop 1 ++ ['"']) := by
  refine ⟨?_, ?_, ?_, ?_⟩
  · unfold step
    simp only [h1, h2, h3, h4, h5, Bool.false_eq_true, if_false, if_true, hopen]
  · intro hsw
    unfold failedLineText
    rw [if_pos hsw]
  · intro hsw m hm
    unfold failedLineText
    rw [if_neg (by rw [hsw]; decide)]
    obtain ⟨hnn, hsl⟩ := afterFirstSep_some (by decide) hm
    rw [show ((": ".toList.length : Nat) : Int) = (2 : Int) from rfl] at hsl
    rw [hsl]
  · intro hsw hm
    unfold failedLineText
    rw [if_neg (by rw [hsw]; decide)]
    rw [afterFirstSep_none hm]
    rw [show (-1 : Int) + 2 = 1 from rfl, jsSlice_nonneg (by omega) _]
    rfl

/-- Claim C4 (witness at a concrete open-trace state and failure line). -/
theorem failed_line_handling_witness :
    step (fun a => a) (fun _ => none)
      ⟨1, [⟨⟨some "A".toList, [], .num 0, false, false⟩, []⟩], ["A".toList]⟩
      "Program A failed: custom error".toList =
      .ok ⟨0, [⟨⟨some "A".toList,
                [⟨"Program returned error: \"custom error\"".toList, "> ".toList, .warning⟩],
                .num 0, false, true⟩, []⟩], []⟩ ∧
    failedLineText "Program A failed: custom error".toList =
      "Program returned error: \"".toList ++ "custom error".toList ++ ['"'] := by
  have h := failed_line_handling (fun a => a) (fun _ => none)
    ⟨1, [⟨⟨some "A".toList, [], .num 0, false, false⟩, []⟩], ["A".toList]⟩
    "Program A failed: custom error".toList
    ⟨⟨some "A".toList, [], .num 0, false, false⟩, []⟩ [] rfl
    (by decide) (by decide) (by decide) (by decide) (by decide)
  exact ⟨h.1, h.2.2.1 (by decide) "custom error".toList (by decide)⟩

/-- Claim C4 (counterexample to the original claim): the failure line
`xfailed` contains no `": "` at all, yet the quoted message is `failed` (the
line with its first character dropped, from `log.slice(log.indexOf(': ') + 2)`
with `indexOf` returning `-1`), not the substring after a first `": "`. -/
theorem failed_line_no_colon_counterexample :
    parseProgramLogs ["Program A invoke [1]".toList, "xfailed".toList]
      none (fun a => a) (fun _ => none) =
      .ok [⟨some "A".toList,
           [⟨"Program returned error: \"failed\"".toList, "> ".toList, .warning⟩],
           .num 0, false, true⟩] ∧
    jsIncludes "xfailed".toList ": ".toList = false ∧
    "Program returned error: \"failed\"".toList ≠ "Program returned error: \"\"".toList :=
  ⟨by rfl, by decide, by decide⟩

/-! ### Claim C6: error attribution after the line pass -/

theorem modifyLast_append_last {α : Type} (f : α → α) : ∀ (init : List α) (t : α),
    modifyLast f (init ++ [t]) = init ++ [f t]
  | [], t => rfl
  | a :: i, t => by
    rw [List.cons_append]
    cases hi : i ++ [t] with
    | nil => exact absurd hi (by simp)
    | cons b r =>
      show a :: modifyLast f (b :: r) = (a :: i) ++ [f t]
      rw [← hi, modifyLast_append_last f i t]
      rw [List.cons_append]

/-- Claim C6 (confirmed).  After the line-by-line pass: with an error
descriptor present and zero traces produced, exactly one empty, already
failed trace (no logs, `invokedProgram` absent, `computeUnits = 0`, not
truncated) is appended; if the error's `failingInstructionIndex` equals the
index of the last trace and that trace is not already failed, the trace is
marked failed and exactly one warning line at indent level 1 reading
`Runtime error: <message>` is appended; if the last trace is already failed,
nothing is appended and no trace is modified. -/
theorem error_attribution_post_pass :
    (∀ e : InstrError,
      finalizeErr (some e) [] = [emptyFailedTrace] ∧
      emptyFailedTrace.logs = [] ∧ emptyFailedTrace.failed = true ∧
      emptyFailedTrace.invokedProgram = none ∧
      emptyFailedTrace.computeUnits = .num 0 ∧ emptyFailedTrace.truncated = false) ∧
    (∀ (e : InstrError) (init : List ITrace) (t : ITrace),
      t.failed = false → (e.index : Int) = ((init ++ [t]).length : Int) - 1 →
      finalizeErr (some e) (init ++ [t]) =
        init ++ [{ t with failed := true, logs := t.logs ++ [⟨"Runtime error: ".toList ++ e.message, prefixBuilder 1, .warning⟩] }]) ∧
    (∀ (e : InstrError) (init : List ITrace) (t : ITrace),
      t.failed = true → (e.index : Int) = ((init ++ [t]).length : Int) - 1 →
      finalizeErr (some e) (init ++ [t]) = init ++ [t]) := by
  refine ⟨?_, ?_, ?_⟩
  · intro e
    refine ⟨?_, rfl, rfl, rfl, rfl, rfl⟩
    unfold finalizeErr
    simp only [List.length_nil, List.nil_append, reduceIte]
    split
    · rfl
    · rfl
  · intro e init t hfail hix
    unfold finalizeErr
    have hlen : (init ++ [t]).length ≠ 0 := by simp
    simp only [if_neg hlen]
    rw [if_pos hix, modifyLast_append_last]
    rw [if_neg (by rw [hfail]; decide)]
  · intro e init t hfail hix
    unfold finalizeErr
    have hlen : (init ++ [t]).length ≠ 0 := by simp
    simp only [if_neg hlen]
    rw [if_pos hix, modifyLast_append_last]
    rw [if_pos hfail]

/-- Claim C6 (witness at concrete trace lists and error descriptors). -/
theorem error_attribution_post_pass_witness :
    finalizeErr (some ⟨0, "oops".toList⟩) [] = [emptyFailedTrace] ∧
    finalizeErr (some ⟨0, "err".toList⟩)
        ([] ++ [(⟨⟨some "A".toList, [], .num 0, false, false⟩, []⟩ : ITrace)]) =
      [] ++ [(⟨⟨some "A".toList,
              [⟨"Runtime error: ".toList ++ "err".toList, prefixBuilder 1, .warning⟩],
              .num 0, false, true⟩, []⟩ : ITrace)] ∧
    finalizeErr (some ⟨0, "err".toList⟩)
        ([] ++ [(⟨⟨some "A".toList, [], .num 0, false, true⟩, []⟩ : ITrace)]) =
      [] ++ [(⟨⟨some "A".toList, [], .num 0, false, true⟩, []⟩ : ITrace)] :=
  ⟨(error_attribution_post_pass.1 ⟨0, "oops".toList⟩).1,
   error_attribution_post_pass.2.1 ⟨0, "err".toList⟩ []
     ⟨⟨some "A".toList, [], .num 0, false, false⟩, []⟩ rfl (by decide),
   error_attribution_post_pass.2.2 ⟨0, "err".toList⟩ []
     ⟨⟨some "A".toList, [], .num 0, false, true⟩, []⟩ rfl (by decide)⟩

/-! ### Claim C10: invocation levels of two or more digits -/

theorem append_cons_inj {α : Type} {x : α} : ∀ {u v b c : List α},
    x ∉ u → x ∉ v → u ++ x :: b = v ++ x :: c → u = v ∧ b = c
  | [], [], b, c, _, _, h => by
    simp only [List.nil_append, List.cons.injEq] at h
    exact ⟨rfl, h.2⟩
  | [], y :: v, b, c, hu, hv, h => by
    simp only [List.nil_append, List.cons_append, List.cons.injEq] at h
    obtain ⟨h1, -⟩ := h
    subst h1
    exact absurd (List.mem_cons_self x v) hv
  | a :: u, [], b, c, hu, hv, h => by
    simp only [List.nil_append, List.cons_append, List.cons.injEq] at h
    obtain ⟨h1, -⟩ := h
    subst h1
    exact absurd (List.mem_cons_self a u) hu
  | a :: u, y :: v, b, c, hu, hv, h => by
    simp only [List.cons_append, List.cons.injEq] at h
    obtain ⟨h1, h2⟩ := h
    subst h1
    obtain ⟨hu', hb⟩ := append_cons_inj (fun hm => hu (List.mem_cons_of_mem _ hm))
      (fun hm => hv (List.mem_cons_of_mem _ hm)) h2
    exact ⟨by rw [hu'], hb⟩

theorem invokeMatchAt_decomp {t a : JSString} (h : invokeMatchAt t = some a) :
    ∃ (w : JSString) (c : Char) (r : JSString),
      t = "Program ".toList ++ w ++ " invoke [".toList ++ c :: ']' :: r ∧
      c.isDigit = true := by
  unfold invokeMatchAt at h
  split at h
  · cases h
  · rename_i r0 h0
    split at h
    · cases h
    · rename_i r2 h2
      split at h
      · rename_i c d rest
        split at h
        · rename_i hcd
          simp only [Bool.and_eq_true, beq_iff_eq] at hcd
          obtain ⟨hdig, hd⟩ := hcd
          subst hd
          have e0 : t = "Program ".toList ++ r0 := dropPre_eq_append h0
          have e2 : r0.dropWhile isWordChar = " invoke [".toList ++ (c :: ']' :: rest) :=
            dropPre_eq_append h2
          have er0 : r0 = r0.takeWhile isWordChar ++ (" invoke [".toList ++ (c :: ']' :: rest)) := by
            rw [← e2, List.takeWhile_append_dropWhile]
          refine ⟨r0.takeWhile isWordChar, c, rest, ?_, hdig⟩
          rw [e0]
          conv_lhs => rw [er0]
          simp [List.append_assoc]
        · cases h
      · cases h

theorem consumedMatchAt_spaces {t : JSString} {v : JSString × JSString × JSString}
    (h : consumedMatchAt t = some v) : 4 ≤ t.count ' ' := by
  unfold consumedMatchAt at h
  split at h
  · cases h
  · rename_i r0 h0
    split at h
    · cases h
    · rename_i r2 h2
      split at h
      · cases h
      · rename_i r3 h3
        have e0 : t = "Program ".toList ++ r0 := dropPre_eq_append h0
        have e2 : r0.dropWhile isWordChar = " consumed ".toList ++ r2 :=
          dropPre_eq_append h2
        have e3 : r2.dropWhile Char.isDigit = " ".toList ++ r3 := dropPre_eq_append h3
        have er0 : r0 = r0.takeWhile isWordChar ++ (" consumed ".toList ++ r2) := by
          rw [← e2, List.takeWhile_append_dropWhile]
        have er2 : r2 = r2.takeWhile Char.isDigit ++ (" ".toList ++ r3) := by
          rw [← e3, List.takeWhile_append_dropWhile]
        rw [e0, er0, er2]
        simp only [List.count_append]
        have c1 : List.count ' ' "Program ".toList = 1 := by decide
        have c2 : List.count ' ' " consumed ".toList = 2 := by decide
        have c3 : List.count ' ' " ".toList = 1 := by decide
        omega

theorem findInvoke_suffix : ∀ {s a : JSString}, findInvoke s = some a →
    ∃ u t2, s = u ++ t2 ∧ invokeMatchAt t2 = some a
  | [], a, h => by cases h
  | c :: t, a, h => by
    unfold findInvoke at h
    cases hm : invokeMatchAt (c :: t) with
    | some b =>
      rw [hm] at h
      cases h
      exact ⟨[], c :: t, rfl, hm⟩
    | none =>
      rw [hm] at h
      simp only at h
      obtain ⟨u, t2, hs, hmm⟩ := findInvoke_suffix h
      exact ⟨c :: u, t2, by rw [hs]; rfl, hmm⟩

theorem hasConsumed_suffix : ∀ {s : JSString}, hasConsumed s = true →
    ∃ u t2, s = u ++ t2 ∧ (consumedMatchAt t2).isSome = true
  | [], h => by cases h
  | c :: t, h => by
    unfold hasConsumed at h
    rcases Bool.or_eq_true_iff.mp h with h1 | h1
    · exact ⟨[], c :: t, rfl, h1⟩
    · obtain ⟨u, t2, hs, hmm⟩ := hasConsumed_suffix h1
      exact ⟨c :: u, t2, by rw [hs]; rfl, hmm⟩

theorem count_eq_zero_of_pred {p : Char → Bool} {x : Char} (hx : p x = false)
    {l : JSString} (hl : ∀ c ∈ l, p c = true) : l.count x = 0 := by
  rw [List.count_eq_zero]
  intro hmem
  rw [hl x hmem] at hx
  cases hx

theorem jsIncludes_infix_of : ∀ {s sub : JSString}, jsIncludes s sub = true →
    ∃ u b, s = u ++ (sub ++ b)
  | [], sub, h => by
    unfold jsIncludes at h
    rcases List.isPrefixOf_iff_prefix.mp h with ⟨b, hb⟩
    exact ⟨[], b, by rw [hb]; rfl⟩
  | c :: t, sub, h => by
    unfold jsIncludes at h
    rcases Bool.or_eq_true_iff.mp h with h1 | h1
    · rcases List.isPrefixOf_iff_prefix.mp h1 with ⟨b, hb⟩
      exact ⟨[], b, by rw [hb]; rfl⟩
    · obtain ⟨u, b, hub⟩ := jsIncludes_infix_of h1
      exact ⟨c :: u, b, by rw [hub]; rfl⟩

theorem invokeLine_split (addr n : JSString) :
    invokeLine addr n =
      ("Program ".toList ++ addr ++ " invoke ".toList) ++ '[' :: (n ++ "]".toList) := by
  unfold invokeLine
  rw [show " invoke [".toList = " invoke ".toList ++ ['['] from rfl]
  simp [List.append_assoc]

theorem invokeLine_count_space {addr n : JSString}
    (haddr : ∀ c ∈ addr, isWordChar c = true) (hn : ∀ c ∈ n, c.isDigit = true) :
    (invokeLine addr n).count ' ' = 3 := by
  unfold invokeLine
  simp only [List.count_append]
  rw [count_eq_zero_of_pred (by decide) haddr, count_eq_zero_of_pred (by decide) hn]
  decide

theorem invokeLine_count_bracket {addr n : JSString}
    (haddr : ∀ c ∈ addr, isWordChar c = true) (hn : ∀ c ∈ n, c.isDigit = true) :
    (invokeLine addr n).count '[' = 1 := by
  unfold invokeLine
  simp only [List.count_append]
  rw [count_eq_zero_of_pred (by decide) haddr, count_eq_zero_of_pred (by decide) hn]
  decide

theorem colon_not_mem_invokeLine {addr n : JSString}
    (haddr : ∀ c ∈ addr, isWordChar c = true) (hn : ∀ c ∈ n, c.isDigit = true) :
    ':' ∉ invokeLine addr n := by
  intro hmem
  unfold invokeLine at hmem
  simp only [List.mem_append] at hmem
  rcases hmem with ((((h | h) | h) | h) | h)
  · exact absurd h (by decide)
  · exact absurd (haddr ':' h) (by decide)
  · exact absurd h (by decide)
  · exact absurd (hn ':' h) (by decide)
  · exact absurd h (by decide)

theorem invokeLine_not_pl {addr n : JSString}
    (haddr : ∀ c ∈ addr, isWordChar c = true) (hn : ∀ c ∈ n, c.isDigit = true) :
    jsStartsWith (invokeLine addr n) "Program log:".toList = false := by
  by_cases hsw : jsStartsWith (invokeLine addr n) "Program log:".toList = true
  · obtain ⟨r, hr⟩ := jsStartsWith_eq_append hsw
    have hc : ':' ∈ invokeLine addr n := by
      rw [hr]
      exact List.mem_append_left _ (by decide)
    exact absurd hc (colon_not_mem_invokeLine haddr hn)
  · simpa using hsw

theorem invokeLine_not_lt (addr n : JSString) :
    jsStartsWith (invokeLine addr n) "Log truncated".toList = false := by
  by_cases hsw : jsStartsWith (invokeLine addr n) "Log truncated".toList = true
  · obtain ⟨r, hr⟩ := jsStartsWith_eq_append hsw
    have h2 : (some 'P' : Option Char) = some 'L' := congrArg List.head? hr
    exact absurd h2 (by decide)
  · simpa using hsw

theorem invokeLine_no_data {addr n : JSString}
    (haddr : ∀ c ∈ addr, isWordChar c = true) (hn : ∀ c ∈ n, c.isDigit = true) :
    jsIncludes (invokeLine addr n) "Program data: ".toList = false := by
  by_cases h : jsIncludes (invokeLine addr n) "Program data: ".toList = true
  · obtain ⟨u, b, hub⟩ := jsIncludes_infix_of h
    have hc : ':' ∈ invokeLine addr n := by
      rw [hub]
      exact List.mem_append_right _ (List.mem_append_left _ (by decide))
    exact absurd hc (colon_not_mem_invokeLine haddr hn)
  · simpa using h

theorem invokeLine_no_consumed {addr n : JSString}
    (haddr : ∀ c ∈ addr, isWordChar c = true) (hn : ∀ c ∈ n, c.isDigit = true) :
    hasConsumed (invokeLine addr n) = false := by
  by_cases h : hasConsumed (invokeLine addr n) = true
  · obtain ⟨u, t2, hs, hmm⟩ := hasConsumed_suffix h
    obtain ⟨v, hv⟩ := Option.isSome_iff_exists.mp hmm
    have h4 : 4 ≤ t2.count ' ' := consumedMatchAt_spaces hv
    have hle : t2.count ' ' ≤ (invokeLine addr n).count ' ' := by
      rw [hs, List.count_append]
      omega
    rw [invokeLine_count_space haddr hn] at hle
    omega
  · simpa using h

theorem invokeLine_no_invoke {addr : JSString} {d1 d2 : Char} {nr : JSString}
    (haddr : ∀ c ∈ addr, isWordChar c = true)
    (hn : ∀ c ∈ d1 :: d2 :: nr, c.isDigit = true) :
    findInvoke (invokeLine addr (d1 :: d2 :: nr)) = none := by
  cases hfi : findInvoke (invokeLine addr (d1 :: d2 :: nr)) with
  | none => rfl
  | some a =>
    exfalso
    obtain ⟨u, t2, hs, hmm⟩ := findInvoke_suffix hfi
    obtain ⟨w, c, r, ht2, hcdig⟩ := invokeMatchAt_decomp hmm
    have hA : invokeLine addr (d1 :: d2 :: nr) =
        (u ++ ("Program ".toList ++ w ++ " invoke ".toList)) ++ '[' :: (c :: ']' :: r) := by
      rw [hs, ht2, show " invoke [".toList = " invoke ".toList ++ ['['] from rfl]
      simp [List.append_assoc]
    have hB : invokeLine addr (d1 :: d2 :: nr) =
        ("Program ".toList ++ addr ++ " invoke ".toList) ++
          '[' :: ((d1 :: d2 :: nr) ++ "]".toList) := invokeLine_split addr (d1 :: d2 :: nr)
    have hcount : (invokeLine addr (d1 :: d2 :: nr)).count '[' = 1 :=
      invokeLine_count_bracket haddr hn
    have h0 : (u ++ ("Program ".toList ++ w ++ " invoke ".toList)).count '[' = 0 := by
      have h1 : ((u ++ ("Program ".toList ++ w ++ " invoke ".toList)) ++
          ('[' :: (c :: ']' :: r))).count '[' = 1 := by
        rw [← hA]
        exact hcount
      rw [show ('[' :: (c :: ']' :: r)) = ['['] ++ (c :: ']' :: r) from rfl] at h1
      simp only [List.count_append] at h1 ⊢
      rw [show List.count '[' (['['] : JSString) = 1 from by decide] at h1
      omega
    have hnotA : '[' ∉ (u ++ ("Program ".toList ++ w ++ " invoke ".toList)) :=
      List.count_eq_zero.mp h0
    have hnotB : '[' ∉ ("Program ".toList ++ addr ++ " invoke ".toList) := by
      intro hm
      simp only [List.mem_append] at hm
      rcases hm with (h | h) | h
      · exact absurd h (by decide)
      · exact absurd (haddr '[' h) (by decide)
      · exact absurd h (by decide)
    obtain ⟨-, heq⟩ := append_cons_inj hnotA hnotB (hA.symm.trans hB)
    simp only [List.cons_append, List.cons.injEq] at heq
    obtain ⟨-, h2, -⟩ := heq
    have hd2 : d2.isDigit = true := hn d2 (by simp)
    rw [← h2] at hd2
    exact absurd hd2 (by decide)

theorem defaultTraceUpdate_plain (dec : JSString → Option JSString)
    (top : Option JSString) (t : ITrace) (l : JSString) (d : Int)
    (hc : hasConsumed l = false)
    (hdata : jsIncludes l "Program data: ".toList = false) :
    defaultTraceUpdate dec top t l d =
      { t with logs := t.logs ++ [⟨l, prefixBuilder d, .muted⟩],
               procd := t.procd ++ [(l, d)] } := by
  unfold defaultTraceUpdate
  rw [consumedReplace_no_match hc]
  simp only [hdata, Bool.false_and, Bool.false_eq_true, if_false]
  by_cases hone : d = 1
  · simp [hone, pushLog]
  · simp [if_neg hone, pushLog]

/-- Claim C10 (corrected; amended statement).  A line of the form
`Program <addr> invoke [<n>]` (with `<addr>` made of word characters and
`<n>` of decimal digits) is recognized as an invocation marker only when
`<n>` is a single digit: for every `<n>` of two or more digits the invocation
regex does not match, so nothing is pushed onto the invocation stack and the
depth is not incremented by the invocation rule; provided the line does not
contain `success` or `failed`, it falls through to the default branch,
synthesizing a trace if the depth is 0 and appending the line verbatim as a
muted line.  (If `<addr>` contains `success` or `failed`, the success or
failure rule fires instead of the default branch.) -/
theorem invoke_multi_digit_not_invocation (addr : JSString) (d1 d2 : Char) (nr : JSString)
    (haddr : ∀ c ∈ addr, isWordChar c = true)
    (hn : ∀ c ∈ d1 :: d2 :: nr, c.isDigit = true)
    (g : JSString → JSString) (dec : JSString → Option JSString) (s : PState)
    (hsucc : jsIncludes (invokeLine addr (d1 :: d2 :: nr)) "success".toList = false)
    (hfail : jsIncludes (invokeLine addr (d1 :: d2 :: nr)) "failed".toList = false) :
    findInvoke (invokeLine addr (d1 :: d2 :: nr)) = none ∧
    (s.depth = 0 →
      step g dec s (invokeLine addr (d1 :: d2 :: nr)) =
        .ok ⟨1, ⟨⟨none, [⟨invokeLine addr (d1 :: d2 :: nr), prefixBuilder 1, .muted⟩], .num 0, false, false⟩, [(invokeLine addr (d1 :: d2 :: nr), 1)]⟩ :: s.prettyLogs, s.currentProgram⟩) ∧
    (∀ (t : ITrace) (rest : List ITrace), s.depth ≠ 0 → s.prettyLogs = t :: rest →
      step g dec s (invokeLine addr (d1 :: d2 :: nr)) =
        .ok ⟨s.depth, { t with logs := t.logs ++ [⟨invokeLine addr (d1 :: d2 :: nr), prefixBuilder s.depth, .muted⟩], procd := t.procd ++ [(invokeLine addr (d1 :: d2 :: nr), s.depth)] } :: rest, s.currentProgram⟩) := by
  have hfi := invokeLine_no_invoke haddr hn
  have hpl := invokeLine_not_pl haddr hn
  have hlt := invokeLine_not_lt addr (d1 :: d2 :: nr)
  have hcons := invokeLine_no_consumed haddr hn
  have hdata := invokeLine_no_data haddr hn
  refine ⟨hfi, ?_, ?_⟩
  · intro hd
    unfold step
    simp only [hpl, hlt, hfi, hsucc, hfail, Bool.false_eq_true, if_false, hd]
    simp only [reduceIte, zero_add]
    rw [defaultTraceUpdate_plain dec s.currentProgram.head? newNullTrace
      (invokeLine addr (d1 :: d2 :: nr)) 1 hcons hdata]
    simp [newNullTrace]
  · intro t rest hd hopen
    unfold step
    simp only [hpl, hlt, hfi, hsucc, hfail, Bool.false_eq_true, if_false, if_neg hd, hopen]
    rw [defaultTraceUpdate_plain dec s.currentProgram.head? t
      (invokeLine addr (d1 :: d2 :: nr)) s.depth hcons hdata]

/-- Claim C10 (witness at a concrete two-digit invocation line and depth 0). -/
theorem invoke_multi_digit_not_invocation_witness :
    findInvoke (invokeLine "A".toList ('1' :: '0' :: [])) = none ∧
    step (fun a => a) (fun _ => none) initState (invokeLine "A".toList ('1' :: '0' :: [])) =
      .ok ⟨1, ⟨⟨none, [⟨invokeLine "A".toList ('1' :: '0' :: []), prefixBuilder 1, .muted⟩], .num 0, false, false⟩, [(invokeLine "A".toList ('1' :: '0' :: []), 1)]⟩ :: initState.prettyLogs, initState.currentProgram⟩ := by
  have h := invoke_multi_digit_not_invocation "A".toList '1' '0' []
    (by decide) (by decide) (fun a => a) (fun _ => none) initState (by decide) (by decide)
  exact ⟨h.1, h.2.1 rfl⟩

/-- Claim C10 (counterexample to the original claim): the two-digit
invocation line `Program success invoke [10]` does not match the invocation
regex, but because its address contains `success` it is handled by the
success rule, not the default branch: a success-styled `Program returned
success` line is appended instead of the verbatim muted line. -/
theorem invoke_multi_digit_success_counterexample :
    "Program success invoke [10]".toList =
      invokeLine "success".toList ('1' :: '0' :: []) ∧
    parseProgramLogs ["Program A invoke [1]".toList, "Program success invoke [10]".toList]
      none (fun a => a) (fun _ => none) =
      .ok [⟨some "A".toList,
           [⟨"Program returned success".toList, "> ".toList, .success⟩],
           .num 0, false, false⟩] :=
  ⟨by decide, by rfl⟩
